import Mathlib

/-!
Verification of the capsulecache repository: a shallow embedding of the
cache entry model (`cache/cache.go`), the quota-bounded LRU store
(`cache/in_memory_quota_lru.go`), the response recorder, the middleware
orchestrator's decision logic, and the hop-by-hop header sanitizer,
together with theorems settling the specification claims.

Conventions of the embedding:
* Go `[]byte` is `List Nat`; Go `int`/`int64` arithmetic on lengths and
  sizes is carried out in `Int` (the values involved never approach the
  64-bit range, so wraparound is not modelled).
* Go `time.Time`/`time.Duration` are `Int` nanosecond counts; `time.Since(t)`
  at observation instant `now` is `now - t`.
* Go `http.Header` (a `map[string][]string` whose keys are canonical MIME
  header names) is an ordered association list; real Go header values have
  pairwise distinct keys, which theorems assume where it matters.
* Mutation is modelled by explicit state passing; each Go method returning
  `(T, error)` returns the new state together with the results, with
  `Option String` for the `error` (always `none` where the Go code can only
  return `nil`).
-/

namespace CapsuleCache

/-- Go `[]byte`, one `Nat` per byte. -/
abbrev Bytes := List Nat

/-- Go `http.Header`: ordered association list of (canonical name, values). -/
abbrev Header := List (String × List String)

/-! ### Go string helpers used by `net/http` header operations -/

/-- Go `net/textproto` `validHeaderFieldByte`: token characters are ASCII
alphanumerics plus `! # $ % & ' * + - . ^ _ | ~` and the backquote
(character codes listed explicitly). -/
def validHeaderFieldChar (c : Char) : Bool :=
  c.isAlphanum ||
    [33, 35, 36, 37, 38, 39, 42, 43, 45, 46, 94, 95, 96, 124, 126].contains c.toNat

/-- One step of Go `textproto.canonicalMIMEHeaderKey`: uppercase a letter at
the start of a dash-separated word, lowercase it elsewhere. -/
def canonicalChar (upper : Bool) (c : Char) : Char :=
  if upper ∧ 'a' ≤ c ∧ c ≤ 'z' then Char.ofNat (c.toNat - 32)
  else if ¬ upper ∧ 'A' ≤ c ∧ c ≤ 'Z' then Char.ofNat (c.toNat + 32)
  else c

/-- Word-boundary-tracking canonicalization of a character list; the flag is
true at the start and right after each `-`. -/
def canonicalList : Bool → List Char → List Char
  | _, [] => []
  | upper, c :: rest => canonicalChar upper c :: canonicalList (c == '-') rest

/-- Go `textproto.CanonicalMIMEHeaderKey`: returns the input unchanged when it
contains a non-token character, otherwise canonicalizes case word by word. -/
def goCanonicalKey (s : String) : String :=
  if s.data.all validHeaderFieldChar then String.mk (canonicalList true s.data) else s

/-- Go `unicode.IsSpace`, as used by `strings.TrimSpace` (White_Space code
points). -/
def isGoSpace (c : Char) : Bool :=
  [9, 10, 11, 12, 13, 32, 133, 160, 5760, 8192, 8193, 8194, 8195, 8196, 8197,
    8198, 8199, 8200, 8201, 8202, 8232, 8233, 8239, 8287, 12288].contains c.toNat

/-- Go `strings.TrimSpace`: drop white space from both ends. -/
def trimSpace (s : String) : String :=
  String.mk (((s.data.dropWhile isGoSpace).reverse.dropWhile isGoSpace).reverse)

/-- Split a character list at every occurrence of `c` (the separators are not
kept; an empty list yields one empty piece). -/
def splitOnChar (c : Char) : List Char → List (List Char)
  | [] => [[]]
  | x :: rest =>
    if x = c then [] :: splitOnChar c rest
    else
      match splitOnChar c rest with
      | [] => [[x]]
      | piece :: pieces => (x :: piece) :: pieces

/-- Go `strings.Split(s, ",")`: the pieces of `s` between commas, in order;
`Split("", ",")` is `[""]`. -/
def splitComma (s : String) : List String :=
  (splitOnChar ',' s.data).map String.mk

/-! ### `http.Header` operations (Go `net/http` / `net/textproto`) -/

/-- Go `http.Header.Get`: first value stored under the canonical key, or `""`
when the key is absent or has no values. -/
def headerGet (h : Header) (key : String) : String :=
  let ck := goCanonicalKey key
  match h.find? (fun p => p.1 = ck) with
  | some p => match p.2 with
    | [] => ""
    | v :: _ => v
  | none => ""

/-- Go `http.Header.Del`: remove the entry stored under the canonical key
(`delete` on the underlying map). -/
def headerDel (h : Header) (key : String) : Header :=
  let ck := goCanonicalKey key
  h.filter (fun p => decide (p.1 ≠ ck))

/-- Go `http.Header.Add`: append a value under the canonical key, creating the
entry when absent (new map keys modelled as appended at the end). -/
def headerAdd (h : Header) (key value : String) : Header :=
  let ck := goCanonicalKey key
  if h.any (fun p => p.1 = ck) then
    h.map (fun p => if p.1 = ck then (p.1, p.2 ++ [value]) else p)
  else
    h ++ [(ck, [value])]

/-! ### Cache entry (`cache/cache.go`) -/

/-- `cache.ResponseCacheEntry`: complete response data plus caching
metadata. -/
structure ResponseCacheEntry where
  StatusCode : Int
  Headers : Header
  Body : Bytes
  CreatedAt : Int
  TTL : Int
  SWR : Int
deriving DecidableEq

/-- `ResponseCacheEntry.Size`: body length plus `len(e.Headers) * 30`, where
Go `len` on the header map counts distinct header names. -/
def ResponseCacheEntry.Size (e : ResponseCacheEntry) : Int :=
  let bodySize : Int := e.Body.length
  let headerSize : Int := e.Headers.length * 30
  bodySize + headerSize

/-- `ResponseCacheEntry.IsStale`: `time.Since(e.CreatedAt) > e.TTL`. -/
def ResponseCacheEntry.IsStale (e : ResponseCacheEntry) (now : Int) : Bool :=
  decide (now - e.CreatedAt > e.TTL)

/-- `ResponseCacheEntry.IsRotten`: `time.Since(e.CreatedAt) > e.TTL + e.SWR`. -/
def ResponseCacheEntry.IsRotten (e : ResponseCacheEntry) (now : Int) : Bool :=
  decide (now - e.CreatedAt > e.TTL + e.SWR)

theorem size_nonneg (e : ResponseCacheEntry) : 0 ≤ e.Size := by
  unfold ResponseCacheEntry.Size
  positivity

/-! ### Response recorder (`response_recorder.go`)

`ResponseRecorder` captures a handler's output.  The `sync.Mutex` serializes
the methods; each method is modelled as a pure function on the recorder
state.  Events emitted to the underlying real `http.ResponseWriter` during
`Flush` are recorded as an explicit `SinkEvent` trace. -/

/-- One call made on the underlying real response writer. -/
inductive SinkEvent where
  | addHeader (key value : String)
  | writeHeader (status : Int)
  | write (body : Bytes)
deriving DecidableEq

/-- `capsulecache.ResponseRecorder` state (the `underlying` writer is kept
outside the state: its received calls are returned as `SinkEvent`s). -/
structure ResponseRecorder where
  status : Int
  header : Header
  body : Bytes
  capReached : Bool
  maxBytes : Int
  written : Bool
deriving DecidableEq

/-- `capsulecache.NewResponseRecorder`: status defaults to `http.StatusOK`
(200), empty header map, empty buffer. -/
def NewResponseRecorder (maxBodyBytes : Int) : ResponseRecorder :=
  { status := 200
    header := []
    body := []
    capReached := false
    maxBytes := maxBodyBytes
    written := false }

/-- `ResponseRecorder.Write`: buffer up to the remaining quota; a
non-positive cap disables the limit; writes past the cap are accepted
(`len(p), nil` returned) but not buffered and set `capReached`; a write that
crosses the cap buffers exactly the remaining quota and returns that count.
Result: new state, returned byte count, returned error (always `nil`). -/
def ResponseRecorder.Write (r : ResponseRecorder) (p : Bytes) :
    ResponseRecorder × Nat × Option String :=
  if r.maxBytes ≤ 0 then
    ({ r with body := r.body ++ p }, p.length, none)
  else
    let remaining : Int := r.maxBytes - r.body.length
    if remaining ≤ 0 then
      ({ r with capReached := true }, p.length, none)
    else if (p.length : Int) ≤ remaining then
      ({ r with body := r.body ++ p }, p.length, none)
    else
      ({ r with body := r.body ++ p.take remaining.toNat, capReached := true },
        remaining.toNat, none)

/-- `ResponseRecorder.WriteHeader`: record the status code. -/
def ResponseRecorder.WriteHeader (r : ResponseRecorder) (status : Int) : ResponseRecorder :=
  { r with status := status }

/-- `ResponseRecorder.Header().Add(key, value)` performed by a handler (the
recorder hands out its header map by reference). -/
def ResponseRecorder.AddHeader (r : ResponseRecorder) (key value : String) : ResponseRecorder :=
  { r with header := headerAdd r.header key value }

/-- The `for k, vv := range hdr { for _, v := range vv { dest.Header().Add(k, v) } }`
loop of `Flush`, as a sink-event trace. -/
def headerEvents (h : Header) : List SinkEvent :=
  (h.map (fun p => p.2.map (fun v => SinkEvent.addHeader p.1 v))).flatten

/-- `ResponseRecorder.Flush`: on the first call, deliver the cloned headers,
then `WriteHeader(status)`, then the buffered body (skipped when empty) to
the underlying writer and mark `written`; later calls do nothing. -/
def ResponseRecorder.Flush (r : ResponseRecorder) : ResponseRecorder × List SinkEvent :=
  if r.written then (r, [])
  else
    ({ r with written := true },
      headerEvents r.header ++ [SinkEvent.writeHeader r.status] ++
        (if r.body.isEmpty then [] else [SinkEvent.write r.body]))

/-- A handler interaction with the recorder: body write, explicit status, or
a header mutation through `Header()`. -/
inductive RecOp where
  | write (p : Bytes)
  | writeHeader (status : Int)
  | addHeader (key value : String)

/-- Whether the op is an explicit `WriteHeader` call. -/
def RecOp.setsStatus : RecOp → Bool
  | .writeHeader _ => true
  | _ => false

/-- Apply one handler interaction (the count returned by `Write` is not part
of the recorder state and is dropped here). -/
def applyRecOp (r : ResponseRecorder) : RecOp → ResponseRecorder
  | .write p => (r.Write p).1
  | .writeHeader s => r.WriteHeader s
  | .addHeader k v => r.AddHeader k v

/-- A whole handler execution against the recorder. -/
def applyRecOps (ops : List RecOp) (r : ResponseRecorder) : ResponseRecorder :=
  ops.foldl applyRecOp r

/-! ### Bounded LRU store (`cache/in_memory_quota_lru.go`)

The `container/list` recency list and the `map[string]*list.Element` index
are modelled together as one list of `lruEntry` values whose head is the
front (most recently used) and whose last element is the back (least
recently used); the map is exactly "the set of keys on the list", which is
the invariant the Go code maintains. -/

/-- `cache.lruEntry`: key, cached size, and the stored entry. -/
structure lruEntry where
  key : String
  size : Int
  value : ResponseCacheEntry
deriving DecidableEq

/-- Sum of the `size` fields, i.e. the value `currentBytes` tracks. -/
def sumSizes (l : List lruEntry) : Int :=
  (l.map (fun x => x.size)).sum

/-- `cache.InMemoryQuotaLRU` state. -/
structure InMemoryQuotaLRU where
  lru : List lruEntry
  maxBytes : Int
  currentBytes : Int
deriving DecidableEq

/-- `cache.NewInMemoryQuotaLRU`: empty store with `maxBytes = maxMB * 1024 * 1024`. -/
def NewInMemoryQuotaLRU (maxMB : Int) : InMemoryQuotaLRU :=
  { lru := [], maxBytes := maxMB * 1024 * 1024, currentBytes := 0 }

/-- The key test used by the map index. -/
def keyIs (key : String) (x : lruEntry) : Bool :=
  decide (x.key = key)

/-- `lru.lru.MoveToFront(element)` for the element indexed by `key` (a no-op
when the key is absent, matching `container/list` on a removed element). -/
def InMemoryQuotaLRU.moveToFront (s : InMemoryQuotaLRU) (key : String) : InMemoryQuotaLRU :=
  match s.lru.find? (keyIs key) with
  | some x => { s with lru := x :: s.lru.eraseP (keyIs key) }
  | none => s

/-- First half of `InMemoryQuotaLRU.Set` (everything before the
`// Eviction` comment): in-place update plus move-to-front when the key
exists, push-front insertion otherwise, with `currentBytes` adjusted by the
precomputed `entry.Size()`. -/
def InMemoryQuotaLRU.insertPhase (s : InMemoryQuotaLRU) (key : String)
    (entry : ResponseCacheEntry) : InMemoryQuotaLRU :=
  let itemSize := entry.Size
  match s.lru.find? (keyIs key) with
  | some old =>
    { s with
      lru := { key := key, size := itemSize, value := entry } :: s.lru.eraseP (keyIs key)
      currentBytes := s.currentBytes - old.size + itemSize }
  | none =>
    { s with
      lru := { key := key, size := itemSize, value := entry } :: s.lru
      currentBytes := s.currentBytes + itemSize }

/-- The eviction loop of `Set`, acting on the recency list *from the back*:
the argument list here is the reversed recency list (head = back).  While
`currentBytes > maxBytes`, remove the back element and subtract its size;
stop when within quota or when the list is exhausted (`Back() == nil`). -/
def evictFromBack (maxB : Int) : List lruEntry → Int → List lruEntry × Int
  | [], cur => ([], cur)
  | x :: rest, cur =>
    if cur ≤ maxB then (x :: rest, cur)
    else evictFromBack maxB rest (cur - x.size)

/-- Second half of `InMemoryQuotaLRU.Set`: run the eviction loop. -/
def InMemoryQuotaLRU.evictPhase (s : InMemoryQuotaLRU) : InMemoryQuotaLRU :=
  let r := evictFromBack s.maxBytes s.lru.reverse s.currentBytes
  { s with lru := r.1.reverse, currentBytes := r.2 }

/-- `InMemoryQuotaLRU.Set`: insert/update then evict; always returns `nil`
error. -/
def InMemoryQuotaLRU.Set (s : InMemoryQuotaLRU) (key : String)
    (entry : ResponseCacheEntry) : InMemoryQuotaLRU × Option String :=
  ((s.insertPhase key entry).evictPhase, none)

/-- `InMemoryQuotaLRU.Delete`: remove the entry when present and subtract its
size; always returns `nil` error. -/
def InMemoryQuotaLRU.Delete (s : InMemoryQuotaLRU) (key : String) :
    InMemoryQuotaLRU × Option String :=
  match s.lru.find? (keyIs key) with
  | some old =>
    ({ s with
        lru := s.lru.eraseP (keyIs key)
        currentBytes := s.currentBytes - old.size }, none)
  | none => (s, none)

/-- A store mutation (the operations that can run while a `Get` is between
its read-locked and write-locked sections). -/
inductive StoreOp where
  | set (key : String) (entry : ResponseCacheEntry)
  | del (key : String)

/-- Apply one store mutation. -/
def InMemoryQuotaLRU.applyStoreOp (s : InMemoryQuotaLRU) : StoreOp → InMemoryQuotaLRU
  | .set k e => (s.Set k e).1
  | .del k => (s.Delete k).1

/-- Apply a sequence of store mutations. -/
def InMemoryQuotaLRU.applyStoreOps (s : InMemoryQuotaLRU) (ops : List StoreOp) :
    InMemoryQuotaLRU :=
  ops.foldl InMemoryQuotaLRU.applyStoreOp s

/-- The store state after the optional interfering mutation has landed. -/
def InMemoryQuotaLRU.interfere (s : InMemoryQuotaLRU) : Option StoreOp → InMemoryQuotaLRU
  | some o => s.applyStoreOp o
  | none => s

/-- `InMemoryQuotaLRU.Get` with its two separately locked sections made
explicit.  Section 1 (read lock): look the key up in the map; a miss returns
immediately.  Between the sections, at most one interfering mutation `op`
may land (this models one interleaving; `none` is the sequential case).
Section 2 (write lock): the Go code calls `MoveToFront(element)` and returns
`element.Value.(*lruEntry).value` *without re-checking the map*.  Per
`container/list`, `MoveToFront` on an element that was removed meanwhile is
a no-op, and `Remove` leaves the element's `Value` intact; a `Set` on the
same key mutates the shared `lruEntry` in place, which is why the returned
value is the interferer's entry in that case. -/
def InMemoryQuotaLRU.GetWithInterference (s1 : InMemoryQuotaLRU)
    (op : Option StoreOp) (key : String) :
    (Option ResponseCacheEntry × Bool) × InMemoryQuotaLRU :=
  match s1.lru.find? (keyIs key) with
  | none => ((none, false), s1)
  | some old =>
    let s2 := s1.interfere op
    let v := match op with
      | some (.set k e) => if k = key then e else old.value
      | _ => old.value
    if s2.lru.any (keyIs key) then ((some v, true), s2.moveToFront key)
    else ((some v, true), s2)

/-- `InMemoryQuotaLRU.Get` with no interference (the sequential behaviour). -/
def InMemoryQuotaLRU.Get (s : InMemoryQuotaLRU) (key : String) :
    (Option ResponseCacheEntry × Bool) × InMemoryQuotaLRU :=
  s.GetWithInterference none key

/-! ### Header sanitizer (`config.go`, `stripHopByHop`) -/

/-- The fixed list deleted by `stripHopByHop`. -/
def hopByHopHeaders : List String :=
  ["Connection", "Proxy-Connection", "Keep-Alive",
    "Proxy-Authenticate", "Proxy-Authorization", "TE",
    "Trailer", "Transfer-Encoding", "Upgrade"]

/-- Body of the `for _, token := range strings.Split(conn, ",")` loop in
`stripHopByHop`: trim the token and delete it unless empty. -/
def delToken (hc : Header) (token : String) : Header :=
  let t := trimSpace token
  if t ≠ "" then headerDel hc t else hc

/-- `capsulecache.stripHopByHop`: clone the input (the clone is what makes
the Go function non-mutating; in this pure model it is the identity), delete
the fixed hop-by-hop names, then delete every non-empty trimmed token of the
value returned by `header.Get("Connection")` (the *first* `Connection`
value). -/
def stripHopByHop (header : Header) : Header :=
  let headerClone := header
  let afterFixed := hopByHopHeaders.foldl (fun hc k => headerDel hc k) headerClone
  let conn := headerGet header "Connection"
  if conn ≠ "" then
    (splitComma conn).foldl delToken afterFixed
  else afterFixed

/-- The non-empty trimmed tokens of the first `Connection` value, i.e. the
token names `stripHopByHop` actually deletes. -/
def connTokens (header : Header) : List String :=
  let conn := headerGet header "Connection"
  if conn ≠ "" then ((splitComma conn).map trimSpace).filter (fun t => t ≠ "") else []

/-- All names removed by `stripHopByHop`, in the canonical form under which
`http.Header.Del` deletes them. -/
def removedNames (header : Header) : List String :=
  (hopByHopHeaders ++ connTokens header).map goCanonicalKey

/-! ### Middleware orchestrator (`capsulecache.go`, `NewCacheMiddleware`) -/

/-- `capsulecache.Config` (the `KeyGenerator` does not participate in any
claim settled here and is omitted; an empty generated key bypasses the code
modelled below entirely). -/
structure Config where
  DefaultTTL : Int
  DefaultSWR : Int
  ShouldCache : Int → Bool
  MaxBodyBytes : Int
  StripHeaders : Header → Header

/-- Everything the lookup phase of the middleware decides for a cacheable
request, given the store lookup result. -/
structure LookupResult where
  /-- Value given to `responseWriter.Header().Set("X-Cache-Status", ...)`,
  or `none` when the code sets no such header. -/
  cacheStatus : Option String
  /-- Value given to `responseWriter.Header().Set("X-Cache-Stale", ...)`. -/
  cacheStale : Option String
  /-- Whether a background SWR refresh goroutine is started. -/
  refreshTriggered : Bool
  /-- `some (status, headers, body)` when the stored response is written to
  the client and the handler is *not* executed; `none` when control falls
  through to the miss/rotten path. -/
  served : Option (Int × Header × Bytes)
deriving DecidableEq

/-- The lookup phase of `NewCacheMiddleware` for a GET/HEAD request with a
non-empty key: `store.Get` produced `res` (`some` iff the boolean from Go's
`Get` was true with a non-nil entry).  Found and not rotten ⇒ serve from the
store with `X-Cache-Status: HIT` and `X-Cache-Stale: YES/NO` (stale
additionally triggers a deduplicated refresh).  `else if !cacheHit` ⇒ set
`X-Cache-Status: MISS`.  A hit on a *rotten* entry matches neither branch:
no diagnostic header is set and the code falls through to the handler. -/
def middlewareLookup (res : Option ResponseCacheEntry) (now : Int) : LookupResult :=
  match res with
  | some entry =>
    if ¬ (entry.IsRotten now) then
      { cacheStatus := some "HIT"
        cacheStale := some (if entry.IsStale now then "YES" else "NO")
        refreshTriggered := entry.IsStale now
        served := some (entry.StatusCode, entry.Headers, entry.Body) }
    else
      { cacheStatus := none, cacheStale := none, refreshTriggered := false, served := none }
  | none =>
    { cacheStatus := some "MISS", cacheStale := none, refreshTriggered := false, served := none }

/-- The entry built from a recorder capture (shared shape of the miss path
and the refresh path): status, stripped header clone, copied body, current
time, configured TTL/SWR. -/
def entryFromRecorder (cfg : Config) (now : Int) (r : ResponseRecorder) :
    ResponseCacheEntry :=
  { StatusCode := r.status
    Headers := cfg.StripHeaders r.header
    Body := r.body
    CreatedAt := now
    TTL := cfg.DefaultTTL
    SWR := cfg.DefaultSWR }

/-- End of the miss/rotten path, after `next.ServeHTTP(responseRecorder, request)`
returned: the entry handed to the asynchronous `store.Set` (`none` when
`cfg.ShouldCache(status)` fails or the byte cap was exceeded), and the final
`responseRecorder.Flush()` with its events to the real client. -/
def missPathFinish (cfg : Config) (now : Int) (r : ResponseRecorder) :
    Option ResponseCacheEntry × ResponseRecorder × List SinkEvent :=
  let status := r.status
  let stored :=
    if cfg.ShouldCache status ∧ r.capReached = false then
      some (entryFromRecorder cfg now r)
    else none
  let fr := r.Flush
  (stored, fr.1, fr.2)

/-- The persistence decision of the background SWR refresh
(`singleFlight.Do` body): same admission guard, against a recorder that was
fed by a discard writer; nothing is ever delivered to a client there. -/
def refreshStored (cfg : Config) (now : Int) (r : ResponseRecorder) :
    Option ResponseCacheEntry :=
  if cfg.ShouldCache r.status ∧ r.capReached = false then
    some (entryFromRecorder cfg now r)
  else none

/-- Body bytes the real client receives from a sink-event trace
(concatenation of all `write` payloads). -/
def clientBody (events : List SinkEvent) : Bytes :=
  (events.map (fun ev => match ev with
    | SinkEvent.write b => b
    | _ => [])).flatten

/-- Number of header key/value *pairs* in a header collection (each value of
each name counted separately) — what claim C8 asserts `Size` charges for. -/
def headerPairCount (h : Header) : Int :=
  ((h.map (fun p => p.2.length)).sum : Int)

/-- The consistency invariant the LRU store maintains: `currentBytes` is the
sum of the tracked sizes, and every tracked size is non-negative (each was
produced by `ResponseCacheEntry.Size`). -/
def WellFormed (s : InMemoryQuotaLRU) : Prop :=
  s.currentBytes = sumSizes s.lru ∧ ∀ x ∈ s.lru, 0 ≤ x.size

/-! ## Theorems -/

/-! ### Supporting lemmas about the LRU store -/

theorem sumSizes_cons (x : lruEntry) (l : List lruEntry) :
    sumSizes (x :: l) = x.size + sumSizes l := by
  simp [sumSizes]

theorem sumSizes_append (l1 l2 : List lruEntry) :
    sumSizes (l1 ++ l2) = sumSizes l1 + sumSizes l2 := by
  simp [sumSizes]

theorem sumSizes_reverse (l : List lruEntry) : sumSizes l.reverse = sumSizes l := by
  simp [sumSizes, List.sum_reverse]

theorem sumSizes_nonneg (l : List lruEntry) (h : ∀ x ∈ l, 0 ≤ x.size) :
    0 ≤ sumSizes l := by
  apply List.sum_nonneg
  intro y hy
  obtain ⟨x, hx, rfl⟩ := List.mem_map.mp hy
  exact h x hx

theorem find?_eraseP_sumSizes (p : lruEntry → Bool) (l : List lruEntry) (x : lruEntry)
    (h : l.find? p = some x) : sumSizes (l.eraseP p) = sumSizes l - x.size := by
  induction l with
  | nil => simp at h
  | cons y t ih =>
    by_cases hy : p y
    · rw [List.find?_cons_of_pos _ hy] at h
      injection h with h
      subst h
      rw [List.eraseP_cons_of_pos hy, sumSizes_cons]
      ring
    · rw [List.find?_cons_of_neg _ hy] at h
      rw [List.eraseP_cons_of_neg hy, sumSizes_cons, sumSizes_cons, ih h]
      ring

theorem wf_new (maxMB : Int) : WellFormed (NewInMemoryQuotaLRU maxMB) := by
  refine ⟨rfl, ?_⟩
  intro x hx
  simp [NewInMemoryQuotaLRU] at hx

theorem wf_insertPhase (s : InMemoryQuotaLRU) (key : String) (entry : ResponseCacheEntry)
    (h : WellFormed s) : WellFormed (s.insertPhase key entry) := by
  obtain ⟨hsum, hpos⟩ := h
  unfold InMemoryQuotaLRU.insertPhase
  split
  case h_1 old hf =>
    refine ⟨?_, ?_⟩
    · dsimp only
      rw [sumSizes_cons, find?_eraseP_sumSizes _ _ _ hf, hsum]
      ring
    · intro x hx
      rcases List.mem_cons.mp hx with hx | hx
      · subst hx; exact size_nonneg entry
      · exact hpos x ((List.eraseP_sublist _).subset hx)
  case h_2 hf =>
    refine ⟨?_, ?_⟩
    · dsimp only
      rw [sumSizes_cons, hsum]
      ring
    · intro x hx
      rcases List.mem_cons.mp hx with hx | hx
      · subst hx; exact size_nonneg entry
      · exact hpos x hx

theorem evictFromBack_spec (maxB : Int) (l : List lruEntry) (cur : Int) :
    ∃ dropped,
      l = dropped ++ (evictFromBack maxB l cur).1 ∧
      (evictFromBack maxB l cur).2 = cur - sumSizes dropped ∧
      ((evictFromBack maxB l cur).2 ≤ maxB ∨ (evictFromBack maxB l cur).1 = []) := by
  induction l generalizing cur with
  | nil =>
    exact ⟨[], by simp [evictFromBack], by simp [evictFromBack, sumSizes], Or.inr rfl⟩
  | cons x rest ih =>
    by_cases hc : cur ≤ maxB
    · refine ⟨[], ?_, ?_, Or.inl ?_⟩ <;> simp [evictFromBack, hc, sumSizes]
    · obtain ⟨d, hd1, hd2, hd3⟩ := ih (cur - x.size)
      refine ⟨x :: d, ?_, ?_, ?_⟩
      · simp only [evictFromBack, if_neg hc, List.cons_append]
        exact congrArg _ hd1
      · simp only [evictFromBack, if_neg hc]
        rw [hd2, sumSizes_cons]
        ring
      · simp only [evictFromBack, if_neg hc]
        exact hd3

theorem evictPhase_spec (s : InMemoryQuotaLRU) :
    ∃ dropped,
      s.lru = s.evictPhase.lru ++ dropped ∧
      s.evictPhase.currentBytes = s.currentBytes - sumSizes dropped ∧
      (s.evictPhase.currentBytes ≤ s.maxBytes ∨ s.evictPhase.lru = []) ∧
      s.evictPhase.maxBytes = s.maxBytes := by
  obtain ⟨d, h1, h2, h3⟩ := evictFromBack_spec s.maxBytes s.lru.reverse s.currentBytes
  have hlru : s.evictPhase.lru
      = (evictFromBack s.maxBytes s.lru.reverse s.currentBytes).1.reverse := rfl
  have hcur : s.evictPhase.currentBytes
      = (evictFromBack s.maxBytes s.lru.reverse s.currentBytes).2 := rfl
  refine ⟨d.reverse, ?_, ?_, ?_, rfl⟩
  · rw [hlru]
    have h1' := congrArg List.reverse h1
    rw [List.reverse_reverse, List.reverse_append] at h1'
    exact h1'
  · rw [hcur, h2, sumSizes_reverse]
  · rcases h3 with h | h
    · exact Or.inl (by rw [hcur]; exact h)
    · exact Or.inr (by rw [hlru, h]; rfl)

theorem wf_evictPhase (s : InMemoryQuotaLRU) (h : WellFormed s) :
    WellFormed s.evictPhase := by
  obtain ⟨hsum, hpos⟩ := h
  obtain ⟨d, h1, h2, h3, h4⟩ := evictPhase_spec s
  constructor
  · rw [h2, hsum, h1, sumSizes_append]
    ring
  · intro x hx
    exact hpos x (by rw [h1]; exact List.mem_append_left _ hx)

theorem wf_Set (s : InMemoryQuotaLRU) (key : String) (entry : ResponseCacheEntry)
    (h : WellFormed s) : WellFormed (s.Set key entry).1 :=
  wf_evictPhase _ (wf_insertPhase _ _ _ h)

theorem wf_Delete (s : InMemoryQuotaLRU) (key : String) (h : WellFormed s) :
    WellFormed (s.Delete key).1 := by
  obtain ⟨hsum, hpos⟩ := h
  unfold InMemoryQuotaLRU.Delete
  split
  case h_1 old hf =>
    refine ⟨?_, ?_⟩
    · dsimp only
      rw [find?_eraseP_sumSizes _ _ _ hf, hsum]
    · intro x hx
      exact hpos x ((List.eraseP_sublist _).subset hx)
  case h_2 hf => exact ⟨hsum, hpos⟩

theorem wf_applyStoreOp (s : InMemoryQuotaLRU) (op : StoreOp) (h : WellFormed s) :
    WellFormed (s.applyStoreOp op) := by
  cases op with
  | set k e => exact wf_Set s k e h
  | del k => exact wf_Delete s k h

theorem wf_applyStoreOps (s : InMemoryQuotaLRU) (ops : List StoreOp) (h : WellFormed s) :
    WellFormed (s.applyStoreOps ops) := by
  induction ops generalizing s with
  | nil => exact h
  | cons op ops ih => exact ih _ (wf_applyStoreOp s op h)

theorem maxBytes_insertPhase (s : InMemoryQuotaLRU) (key : String)
    (entry : ResponseCacheEntry) : (s.insertPhase key entry).maxBytes = s.maxBytes := by
  unfold InMemoryQuotaLRU.insertPhase
  split <;> rfl

theorem maxBytes_Set (s : InMemoryQuotaLRU) (key : String) (entry : ResponseCacheEntry) :
    (s.Set key entry).1.maxBytes = s.maxBytes := by
  have h1 : (s.Set key entry).1.maxBytes = (s.insertPhase key entry).maxBytes := rfl
  rw [h1, maxBytes_insertPhase]

theorem maxBytes_Delete (s : InMemoryQuotaLRU) (key : String) :
    (s.Delete key).1.maxBytes = s.maxBytes := by
  unfold InMemoryQuotaLRU.Delete
  split <;> rfl

theorem maxBytes_applyStoreOps (s : InMemoryQuotaLRU) (ops : List StoreOp) :
    (s.applyStoreOps ops).maxBytes = s.maxBytes := by
  induction ops generalizing s with
  | nil => rfl
  | cons op ops ih =>
    have h1 : s.applyStoreOps (op :: ops) = (s.applyStoreOp op).applyStoreOps ops := rfl
    rw [h1, ih]
    cases op with
    | set k e => exact maxBytes_Set s k e
    | del k => exact maxBytes_Delete s k

/-- C6: with a non-negative SWR window, an entry is Fresh (neither stale nor
rotten) exactly when `age ≤ TTL`, Stale-but-not-Rotten exactly when
`TTL < age ≤ TTL + SWR`, and Rotten exactly when `age > TTL + SWR`, where
`age = now - CreatedAt`. -/
theorem freshness_partition (e : ResponseCacheEntry) (now : Int) (hS : 0 ≤ e.SWR) :
    ((e.IsStale now = false ∧ e.IsRotten now = false) ↔ now - e.CreatedAt ≤ e.TTL) ∧
    ((e.IsStale now = true ∧ e.IsRotten now = false) ↔
      (e.TTL < now - e.CreatedAt ∧ now - e.CreatedAt ≤ e.TTL + e.SWR)) ∧
    (e.IsRotten now = true ↔ now - e.CreatedAt > e.TTL + e.SWR) := by
  unfold ResponseCacheEntry.IsStale ResponseCacheEntry.IsRotten
  refine ⟨?_, ?_, ?_⟩ <;>
    simp only [decide_eq_true_eq, decide_eq_false_iff_not] <;>
    omega

/-- Witness for `freshness_partition` at `TTL = 5`, `SWR = 2`, age `3`. -/
theorem freshness_partition_witness :
    ((⟨200, [], [], 0, 5, 2⟩ : ResponseCacheEntry).IsStale 3 = false ∧
        (⟨200, [], [], 0, 5, 2⟩ : ResponseCacheEntry).IsRotten 3 = false) ↔
      (3 : Int) - 0 ≤ 5 :=
  (freshness_partition ⟨200, [], [], 0, 5, 2⟩ 3 (by decide)).1

/-- C8 counterexample: an entry with one header name carrying two values has
`Size = 30` (one distinct name), not `60` (two key/value pairs); the claim's
per-pair accounting does not match `Size`. -/
theorem Size_not_per_pair :
    (⟨200, [("A", ["x", "y"])], [], 0, 1, 1⟩ : ResponseCacheEntry).Size = 30 ∧
    ((([] : Bytes).length : Int) + 30 * headerPairCount [("A", ["x", "y"])]) = 60 ∧
    ¬ ((⟨200, [("A", ["x", "y"])], [], 0, 1, 1⟩ : ResponseCacheEntry).Size
        = (([] : Bytes).length : Int) + 30 * headerPairCount [("A", ["x", "y"])]) := by
  decide

/-- C8 (amended): `Size` equals the body length plus 30 per *distinct header
name* (Go `len` on the header map), not per key/value pair. -/
theorem Size_per_distinct_name (e : ResponseCacheEntry)
    (hnd : (e.Headers.map Prod.fst).Nodup) :
    e.Size = (e.Body.length : Int) + 30 * ((e.Headers.map Prod.fst).dedup.length : Int) := by
  unfold ResponseCacheEntry.Size
  rw [List.Nodup.dedup hnd, List.length_map]
  ring

/-- Witness for `Size_per_distinct_name` on a two-name header map. -/
theorem Size_per_distinct_name_witness :
    (⟨200, [("A", ["x"]), ("B", ["y"])], [7], 0, 1, 1⟩ : ResponseCacheEntry).Size
      = ((([7] : Bytes).length : Int) +
          30 * ((([("A", ["x"]), ("B", ["y"])] : Header).map Prod.fst).dedup.length : Int)) :=
  Size_per_distinct_name ⟨200, [("A", ["x"]), ("B", ["y"])], [7], 0, 1, 1⟩ (by decide)

/-- C2 counterexample: a lookup that finds a rotten entry sets *no*
`X-Cache-Status` header, while a clean miss sets `MISS` — the two cases do
not share the same client-visible diagnostic value. -/
theorem rotten_lookup_sets_no_miss_header :
    let e : ResponseCacheEntry := ⟨200, [], [], 0, 1, 1⟩
    e.IsRotten 3 = true ∧
    (middlewareLookup (some e) 3).cacheStatus = none ∧
    (middlewareLookup none 3).cacheStatus = some "MISS" ∧
    (middlewareLookup (some e) 3).cacheStatus ≠ (middlewareLookup none 3).cacheStatus := by
  decide

/-- C2 (amended): a clean miss sets the diagnostic value `MISS`, but a rotten
hit sets no cache-status diagnostic at all; both cases do fall through to
handler execution (nothing is served from the store). -/
theorem rotten_and_clean_miss_diagnostics (e : ResponseCacheEntry) (now : Int)
    (hrot : e.IsRotten now = true) :
    (middlewareLookup (some e) now).cacheStatus = none ∧
    (middlewareLookup (some e) now).served = none ∧
    (middlewareLookup none now).cacheStatus = some "MISS" ∧
    (middlewareLookup none now).served = none := by
  simp [middlewareLookup, hrot]

/-- Witness for `rotten_and_clean_miss_diagnostics` at a concrete rotten
entry. -/
theorem rotten_and_clean_miss_diagnostics_witness :
    (middlewareLookup (some ⟨200, [], [], 0, 1, 1⟩) 3).cacheStatus = none ∧
    (middlewareLookup (some ⟨200, [], [], 0, 1, 1⟩) 3).served = none ∧
    (middlewareLookup (none : Option ResponseCacheEntry) 3).cacheStatus = some "MISS" ∧
    (middlewareLookup (none : Option ResponseCacheEntry) 3).served = none :=
  rotten_and_clean_miss_diagnostics ⟨200, [], [], 0, 1, 1⟩ 3 (by decide)

/-- C1 (code defect): on the miss path with `MaxBodyBytes = 2`, a handler
that writes 3 body bytes has only the 2 buffered bytes flushed to the real
client — the recorder never forwards writes and `Flush` sends the truncated
buffer, so the client does *not* receive every byte the handler wrote (the
capture is also not admitted to the store). -/
theorem miss_path_truncates_client_body :
    let cfg : Config := ⟨60, 30, fun s => decide (s = 200), 2, stripHopByHop⟩
    let r1 := ((NewResponseRecorder cfg.MaxBodyBytes).Write [97, 98, 99]).1
    ((NewResponseRecorder cfg.MaxBodyBytes).Write [97, 98, 99]).2.1 = 2 ∧
    clientBody (missPathFinish cfg 0 r1).2.2 = [97, 98] ∧
    clientBody (missPathFinish cfg 0 r1).2.2 ≠ [97, 98, 99] ∧
    (missPathFinish cfg 0 r1).1 = none := by
  decide

/-- C3 counterexample: with one entry `"k"` in the store, a `Delete("k")`
landing between `Get`'s read-locked and write-locked sections makes the
re-check fail (the key is gone), yet `Get` returns the evicted entry with
`found = true` instead of behaving as a miss. -/
theorem get_returns_evicted_entry :
    let e : ResponseCacheEntry := ⟨200, [], [], 0, 1, 1⟩
    let s1 : InMemoryQuotaLRU := ⟨[⟨"k", 0, e⟩], 1048576, 0⟩
    ((s1.interfere (some (StoreOp.del "k"))).lru.any (keyIs "k") = false) ∧
    (s1.GetWithInterference (some (StoreOp.del "k")) "k").1 = (some e, true) ∧
    (s1.GetWithInterference (some (StoreOp.del "k")) "k").1 ≠ (none, false) := by
  decide

/-- C3 (amended): `Get` performs no re-verification in its exclusive
section: once the read-locked section finds the key, the result reports
`found = true` no matter what landed in between, and when the entry was
removed meanwhile (re-check would fail) the removed entry's value is
returned rather than a miss. -/
theorem get_promotes_without_recheck (s1 : InMemoryQuotaLRU) (key : String)
    (op : Option StoreOp) (old : lruEntry)
    (hfound : s1.lru.find? (keyIs key) = some old) :
    (s1.GetWithInterference op key).1.2 = true ∧
    ((∀ e, op ≠ some (StoreOp.set key e)) →
      (s1.interfere op).lru.any (keyIs key) = false →
      (s1.GetWithInterference op key).1 = (some old.value, true)) := by
  constructor
  · unfold InMemoryQuotaLRU.GetWithInterference
    rw [hfound]
    dsimp only
    split <;> rfl
  · intro hns hgone
    unfold InMemoryQuotaLRU.GetWithInterference
    rw [hfound]
    dsimp only
    rw [if_neg (by simp [hgone])]
    cases op with
    | none => rfl
    | some o =>
      cases o with
      | del k => rfl
      | set k e =>
        have hk : ¬ (k = key) := by
          intro hkey
          exact hns e (by rw [hkey])
        simp [hk]

/-- Witness for `get_promotes_without_recheck`: the deleted-in-between case
at a concrete store. -/
theorem get_promotes_without_recheck_witness :
    ((⟨[⟨"k", 0, ⟨200, [], [], 0, 1, 1⟩⟩], 1048576, 0⟩ : InMemoryQuotaLRU).GetWithInterference
        (some (StoreOp.del "k")) "k").1
      = (some ⟨200, [], [], 0, 1, 1⟩, true) :=
  (get_promotes_without_recheck ⟨[⟨"k", 0, ⟨200, [], [], 0, 1, 1⟩⟩], 1048576, 0⟩ "k"
      (some (StoreOp.del "k")) ⟨"k", 0, ⟨200, [], [], 0, 1, 1⟩⟩ (by decide)).2
    (by intro e h; simp at h) (by decide)

/-! ### Supporting lemmas about the header sanitizer -/

theorem foldl_headerDel_eq_filter (ks : List String) (h : Header) :
    ks.foldl (fun hc k => headerDel hc k) h
      = h.filter (fun p => decide (p.1 ∉ ks.map goCanonicalKey)) := by
  induction ks generalizing h with
  | nil => simp
  | cons k ks ih =>
    rw [List.foldl_cons, ih]
    unfold headerDel
    dsimp only
    rw [List.filter_filter]
    apply List.filter_congr
    intro p _
    by_cases h1 : p.1 = goCanonicalKey k <;> by_cases h2 : p.1 ∈ ks.map goCanonicalKey <;>
      simp [h1, h2]

theorem foldl_delToken_eq_filter (ts : List String) (h : Header) :
    ts.foldl delToken h
      = h.filter (fun p =>
          decide (p.1 ∉ ((ts.map trimSpace).filter (fun t => t ≠ "")).map goCanonicalKey)) := by
  induction ts generalizing h with
  | nil => simp
  | cons t ts ih =>
    rw [List.foldl_cons, ih]
    by_cases ht : trimSpace t = ""
    · have hd : delToken h t = h := by
        unfold delToken
        dsimp only
        rw [if_neg (by simp [ht])]
      have htoks : ((t :: ts).map trimSpace).filter (fun t => t ≠ "")
          = (ts.map trimSpace).filter (fun t => t ≠ "") := by
        simp [ht]
      rw [hd, htoks]
    · have hd : delToken h t = headerDel h (trimSpace t) := by
        unfold delToken
        dsimp only
        rw [if_pos ht]
      have htoks : ((t :: ts).map trimSpace).filter (fun t => t ≠ "")
          = trimSpace t :: (ts.map trimSpace).filter (fun t => t ≠ "") := by
        simp [ht]
      rw [hd, htoks]
      unfold headerDel
      dsimp only
      rw [List.filter_filter]
      apply List.filter_congr
      intro p _
      by_cases h1 : p.1 = goCanonicalKey (trimSpace t) <;>
        by_cases h2 : p.1 ∈ ((ts.map trimSpace).filter (fun t => t ≠ "")).map goCanonicalKey <;>
        simp [h1, h2]

/-! ### Supporting lemmas about the recorder -/

theorem Write_maxBytes (r : ResponseRecorder) (p : Bytes) :
    ((r.Write p).1).maxBytes = r.maxBytes := by
  unfold ResponseRecorder.Write
  dsimp only
  split_ifs <;> rfl

theorem Write_written (r : ResponseRecorder) (p : Bytes) :
    ((r.Write p).1).written = r.written := by
  unfold ResponseRecorder.Write
  dsimp only
  split_ifs <;> rfl

theorem Write_status (r : ResponseRecorder) (p : Bytes) :
    ((r.Write p).1).status = r.status := by
  unfold ResponseRecorder.Write
  dsimp only
  split_ifs <;> rfl

theorem applyRecOp_maxBytes (r : ResponseRecorder) (op : RecOp) :
    (applyRecOp r op).maxBytes = r.maxBytes := by
  cases op with
  | write p => exact Write_maxBytes r p
  | writeHeader s => rfl
  | addHeader k v => rfl

theorem applyRecOp_written (r : ResponseRecorder) (op : RecOp) :
    (applyRecOp r op).written = r.written := by
  cases op with
  | write p => exact Write_written r p
  | writeHeader s => rfl
  | addHeader k v => rfl

theorem applyRecOps_written (ops : List RecOp) (r : ResponseRecorder) :
    (applyRecOps ops r).written = r.written := by
  induction ops generalizing r with
  | nil => rfl
  | cons op ops ih =>
    have h1 : applyRecOps (op :: ops) r = applyRecOps ops (applyRecOp r op) := rfl
    rw [h1, ih, applyRecOp_written]

theorem applyRecOps_status (ops : List RecOp) (r : ResponseRecorder)
    (h : ∀ op ∈ ops, op.setsStatus = false) :
    (applyRecOps ops r).status = r.status := by
  induction ops generalizing r with
  | nil => rfl
  | cons op ops ih =>
    have h1 : applyRecOps (op :: ops) r = applyRecOps ops (applyRecOp r op) := rfl
    rw [h1, ih _ (fun o ho => h o (List.mem_cons_of_mem _ ho))]
    cases op with
    | write p => exact Write_status r p
    | writeHeader s =>
      exact absurd (h _ (List.mem_cons_self _ _)) (by simp [RecOp.setsStatus])
    | addHeader k v => rfl

theorem Write_body_le (r : ResponseRecorder) (p : Bytes) (hpos : 0 < r.maxBytes)
    (hle : (r.body.length : Int) ≤ r.maxBytes) :
    (((r.Write p).1).body.length : Int) ≤ r.maxBytes := by
  unfold ResponseRecorder.Write
  dsimp only
  split_ifs with h0 h1 h2
  · omega
  · exact hle
  · simp only [List.length_append]
    push_cast
    omega
  · simp only [List.length_append, List.length_take]
    push_cast
    omega

theorem applyRecOp_body_le (r : ResponseRecorder) (op : RecOp) (hpos : 0 < r.maxBytes)
    (hle : (r.body.length : Int) ≤ r.maxBytes) :
    ((applyRecOp r op).body.length : Int) ≤ r.maxBytes := by
  cases op with
  | write p => exact Write_body_le r p hpos hle
  | writeHeader s => exact hle
  | addHeader k v => exact hle

theorem recorder_body_le (maxB : Int) (hpos : 0 < maxB) (ops : List RecOp) :
    ((applyRecOps ops (NewResponseRecorder maxB)).body.length : Int) ≤ maxB := by
  suffices h : ∀ r : ResponseRecorder, r.maxBytes = maxB → (r.body.length : Int) ≤ maxB →
      ((applyRecOps ops r).body.length : Int) ≤ maxB by
    exact h _ rfl (by simp [NewResponseRecorder]; omega)
  induction ops with
  | nil => intro r h1 h2; exact h2
  | cons op ops ih =>
    intro r h1 h2
    have hstep : applyRecOps (op :: ops) r = applyRecOps ops (applyRecOp r op) := rfl
    rw [hstep]
    apply ih
    · rw [applyRecOp_maxBytes, h1]
    · rw [← h1]
      exact applyRecOp_body_le r op (h1 ▸ hpos) (h1 ▸ h2)

/-- C5: with a positive byte cap, (1) a `Write` arriving with the quota
already exhausted reports its whole input as consumed with no error, buffers
nothing, and marks the recorder over-capacity; a `Write` fitting in the
remaining quota is buffered whole; a `Write` crossing the cap buffers
exactly the remaining quota and marks over-capacity; (2) the buffer
therefore never exceeds the cap over any write sequence; (3) an
over-capacity capture is never handed to the store's `Set`, neither by the
miss path nor by the background refresh. -/
theorem recorder_cap_and_admission :
    (∀ (r : ResponseRecorder) (p : Bytes), 0 < r.maxBytes →
      ((r.maxBytes - (r.body.length : Int) ≤ 0 →
          r.Write p = ({ r with capReached := true }, p.length, none)) ∧
        (0 < r.maxBytes - (r.body.length : Int) →
          (p.length : Int) ≤ r.maxBytes - (r.body.length : Int) →
          r.Write p = ({ r with body := r.body ++ p }, p.length, none)) ∧
        (0 < r.maxBytes - (r.body.length : Int) →
          r.maxBytes - (r.body.length : Int) < (p.length : Int) →
          r.Write p = ({ r with
              body := r.body ++ p.take (r.maxBytes - (r.body.length : Int)).toNat,
              capReached := true },
            (r.maxBytes - (r.body.length : Int)).toNat, none)))) ∧
    (∀ (maxB : Int) (ops : List RecOp), 0 < maxB →
      ((applyRecOps ops (NewResponseRecorder maxB)).body.length : Int) ≤ maxB) ∧
    (∀ (cfg : Config) (now : Int) (r : ResponseRecorder), r.capReached = true →
      (missPathFinish cfg now r).1 = none ∧ refreshStored cfg now r = none) := by
  refine ⟨?_, ?_, ?_⟩
  · intro r p hpos
    refine ⟨?_, ?_, ?_⟩
    · intro hrem
      unfold ResponseRecorder.Write
      rw [if_neg (by omega), if_pos hrem]
    · intro hrem hfit
      unfold ResponseRecorder.Write
      rw [if_neg (by omega), if_neg (by omega), if_pos hfit]
    · intro hrem hover
      unfold ResponseRecorder.Write
      rw [if_neg (by omega), if_neg (by omega), if_neg (by omega)]
  · exact fun maxB ops hpos => recorder_body_le maxB hpos ops
  · intro cfg now r h
    constructor
    · unfold missPathFinish
      dsimp only
      rw [if_neg (by simp [h])]
    · unfold refreshStored
      rw [if_neg (by simp [h])]

/-- Witness for `recorder_cap_and_admission`: a recorder at its 2-byte cap
accepts a 1-byte write, reporting it consumed without buffering, and its
capture is not admitted by the miss path. -/
theorem recorder_cap_and_admission_witness :
    (ResponseRecorder.Write ⟨200, [], [1, 2], false, 2, false⟩ [9]
        = (⟨200, [], [1, 2], true, 2, false⟩, 1, none)) ∧
    (missPathFinish ⟨60, 30, fun s => decide (s = 200), 2, stripHopByHop⟩ 0
        ⟨200, [], [1, 2], true, 2, false⟩).1 = none :=
  ⟨((recorder_cap_and_admission.1 ⟨200, [], [1, 2], false, 2, false⟩ [9] (by decide)).1
      (by decide)),
    (recorder_cap_and_admission.2.2 ⟨60, 30, fun s => decide (s = 200), 2, stripHopByHop⟩ 0
        ⟨200, [], [1, 2], true, 2, false⟩ rfl).1⟩

/-- C7: for any handler interaction sequence, the first `Flush` emits the
recorded headers, then the status, then the body, in that order; it marks
the recorder delivered, and a `Flush` on a delivered recorder emits nothing
and changes nothing; if the handler never called `WriteHeader`, the
delivered status is 200. -/
theorem flush_exactly_once (maxB : Int) (ops : List RecOp) :
    ((applyRecOps ops (NewResponseRecorder maxB)).Flush).2
        = headerEvents (applyRecOps ops (NewResponseRecorder maxB)).header
          ++ [SinkEvent.writeHeader (applyRecOps ops (NewResponseRecorder maxB)).status]
          ++ (if (applyRecOps ops (NewResponseRecorder maxB)).body.isEmpty then []
              else [SinkEvent.write (applyRecOps ops (NewResponseRecorder maxB)).body]) ∧
    (((applyRecOps ops (NewResponseRecorder maxB)).Flush).1.written = true) ∧
    (∀ r' : ResponseRecorder, r'.written = true → r'.Flush = (r', [])) ∧
    ((∀ op ∈ ops, op.setsStatus = false) →
      (applyRecOps ops (NewResponseRecorder maxB)).status = 200) := by
  have hw : (applyRecOps ops (NewResponseRecorder maxB)).written = false := by
    rw [applyRecOps_written]
    rfl
  refine ⟨?_, ?_, ?_, ?_⟩
  · unfold ResponseRecorder.Flush
    rw [if_neg (by simp [hw])]
  · unfold ResponseRecorder.Flush
    rw [if_neg (by simp [hw])]
  · intro r' h
    unfold ResponseRecorder.Flush
    rw [if_pos h]
  · intro h
    rw [applyRecOps_status _ _ h]
    rfl

/-- Witness for `flush_exactly_once`: a handler that adds one header and
writes two bytes without setting a status gets delivered as
header, then status 200, then body. -/
theorem flush_exactly_once_witness :
    ((applyRecOps [RecOp.addHeader "A" "x", RecOp.write [1, 2]]
        (NewResponseRecorder 10)).Flush).2
      = [SinkEvent.addHeader "A" "x", SinkEvent.writeHeader 200, SinkEvent.write [1, 2]] ∧
    (applyRecOps [RecOp.addHeader "A" "x", RecOp.write [1, 2]]
        (NewResponseRecorder 10)).status = 200 :=
  ⟨(flush_exactly_once 10 [RecOp.addHeader "A" "x", RecOp.write [1, 2]]).1.trans (by decide),
    (flush_exactly_once 10 [RecOp.addHeader "A" "x", RecOp.write [1, 2]]).2.2.2 (by decide)⟩

/-- C4: on any store state reachable by `Set`/`Delete` sequences from a
fresh store with a non-negative megabyte quota, once `Set` returns the
tracked running total is within the byte quota, and what eviction removed is
exactly a block cut from the least-recently-used end of the post-insertion
recency list, with its summed sizes subtracted from the running total. -/
theorem set_respects_quota (maxMB : Int) (hMB : 0 ≤ maxMB) (ops : List StoreOp)
    (key : String) (entry : ResponseCacheEntry) :
    ((((NewInMemoryQuotaLRU maxMB).applyStoreOps ops).Set key entry).1.currentBytes
        ≤ (((NewInMemoryQuotaLRU maxMB).applyStoreOps ops).Set key entry).1.maxBytes) ∧
    ∃ dropped,
      (((NewInMemoryQuotaLRU maxMB).applyStoreOps ops).insertPhase key entry).lru
          = (((NewInMemoryQuotaLRU maxMB).applyStoreOps ops).Set key entry).1.lru ++ dropped ∧
      (((NewInMemoryQuotaLRU maxMB).applyStoreOps ops).Set key entry).1.currentBytes
          = (((NewInMemoryQuotaLRU maxMB).applyStoreOps ops).insertPhase key entry).currentBytes
            - sumSizes dropped := by
  set s := (NewInMemoryQuotaLRU maxMB).applyStoreOps ops with hs
  have hwf : WellFormed s := wf_applyStoreOps _ _ (wf_new maxMB)
  have hwf2 : WellFormed (s.insertPhase key entry) := wf_insertPhase _ _ _ hwf
  have hmax2 : (s.insertPhase key entry).maxBytes = maxMB * 1024 * 1024 := by
    rw [maxBytes_insertPhase, hs, maxBytes_applyStoreOps]
    rfl
  obtain ⟨d, h1, h2, h3, h4⟩ := evictPhase_spec (s.insertPhase key entry)
  have hset : (s.Set key entry).1 = (s.insertPhase key entry).evictPhase := rfl
  refine ⟨?_, d, ?_, ?_⟩
  · rw [hset, h4]
    rcases h3 with h | h
    · exact h
    · have hz := (wf_evictPhase _ hwf2).1
      rw [h] at hz
      have hz0 : (s.insertPhase key entry).evictPhase.currentBytes = 0 := by
        simpa [sumSizes] using hz
      rw [hz0, hmax2]
      have h1024 : (0 : Int) ≤ 1024 := by norm_num
      exact mul_nonneg (mul_nonneg hMB h1024) h1024
  · rw [hset]
    exact h1
  · rw [hset]
    exact h2

/-- Witness for `set_respects_quota` at quota 0 MB, empty history, and a
size-0 entry. -/
theorem set_respects_quota_witness :
    ((((NewInMemoryQuotaLRU 0).applyStoreOps []).Set "k" ⟨200, [], [], 0, 1, 1⟩).1.currentBytes
        ≤ (((NewInMemoryQuotaLRU 0).applyStoreOps []).Set "k" ⟨200, [], [], 0, 1, 1⟩).1.maxBytes) ∧
    ∃ dropped,
      (((NewInMemoryQuotaLRU 0).applyStoreOps []).insertPhase "k" ⟨200, [], [], 0, 1, 1⟩).lru
          = (((NewInMemoryQuotaLRU 0).applyStoreOps []).Set "k" ⟨200, [], [], 0, 1, 1⟩).1.lru
              ++ dropped ∧
      (((NewInMemoryQuotaLRU 0).applyStoreOps []).Set "k" ⟨200, [], [], 0, 1, 1⟩).1.currentBytes
          = (InMemoryQuotaLRU.insertPhase ((NewInMemoryQuotaLRU 0).applyStoreOps [])
                "k" ⟨200, [], [], 0, 1, 1⟩).currentBytes
            - sumSizes dropped :=
  set_respects_quota 0 (by decide) [] "k" ⟨200, [], [], 0, 1, 1⟩

/-- C10 (amended): on any reachable store state, `Set` of an entry whose
`Size` exceeds the byte quota returns no error, but leaves the store empty —
the new entry itself and every older entry are evicted — so an immediate
`Get` for that key reports not-found.  (At quota 0 this holds for every
entry of positive size; size-0 entries are retained, see the
counterexample.) -/
theorem oversized_entry_never_retained (maxMB : Int)
    (ops : List StoreOp) (key : String) (entry : ResponseCacheEntry)
    (hbig : ((NewInMemoryQuotaLRU maxMB).applyStoreOps ops).maxBytes < entry.Size) :
    ((((NewInMemoryQuotaLRU maxMB).applyStoreOps ops).Set key entry).2 = none) ∧
    ((((NewInMemoryQuotaLRU maxMB).applyStoreOps ops).Set key entry).1.lru = []) ∧
    (((((NewInMemoryQuotaLRU maxMB).applyStoreOps ops).Set key entry).1.Get key).1
        = (none, false)) := by
  set s := (NewInMemoryQuotaLRU maxMB).applyStoreOps ops with hs
  have hwf : WellFormed s := wf_applyStoreOps _ _ (wf_new maxMB)
  have hwf2 : WellFormed (s.insertPhase key entry) := wf_insertPhase _ _ _ hwf
  have hmax : (s.insertPhase key entry).maxBytes = s.maxBytes := maxBytes_insertPhase s key entry
  have hhead : ∃ t, (s.insertPhase key entry).lru
      = ({ key := key, size := entry.Size, value := entry } : lruEntry) :: t := by
    unfold InMemoryQuotaLRU.insertPhase
    split <;> exact ⟨_, rfl⟩
  obtain ⟨t, ht⟩ := hhead
  obtain ⟨d, h1, h2, h3, h4⟩ := evictPhase_spec (s.insertPhase key entry)
  have hset : (s.Set key entry).1 = (s.insertPhase key entry).evictPhase := rfl
  have hempty : (s.insertPhase key entry).evictPhase.lru = [] := by
    rcases h3 with hle | he
    · by_contra hne
      obtain ⟨a, rest', ha⟩ := List.exists_cons_of_ne_nil hne
      have hkd : ({ key := key, size := entry.Size, value := entry } : lruEntry) :: t
          = a :: (rest' ++ d) := by
        rw [← List.cons_append, ← ha, ← h1, ht]
      have ha' : a = { key := key, size := entry.Size, value := entry } := by
        injection hkd with h5 h6
        exact h5.symm
      have hwfe := wf_evictPhase _ hwf2
      have hsumkept := hwfe.1
      rw [ha, ha', sumSizes_cons] at hsumkept
      have hrest : 0 ≤ sumSizes rest' := by
        apply sumSizes_nonneg
        intro x hx
        apply hwfe.2
        rw [ha]
        exact List.mem_cons_of_mem _ hx
      rw [hmax] at hle
      dsimp only at hsumkept
      omega
    · exact he
  refine ⟨rfl, ?_, ?_⟩
  · rw [hset]
    exact hempty
  · rw [hset]
    have hfind : (s.insertPhase key entry).evictPhase.lru.find? (keyIs key) = none := by
      rw [hempty]
      rfl
    unfold InMemoryQuotaLRU.Get InMemoryQuotaLRU.GetWithInterference
    rw [hfind]

/-- Witness for `oversized_entry_never_retained` at quota 0 MB and a 1-byte
body. -/
theorem oversized_entry_never_retained_witness :
    ((((NewInMemoryQuotaLRU 0).applyStoreOps []).Set "k" ⟨200, [], [1], 0, 1, 1⟩).2 = none) ∧
    ((((NewInMemoryQuotaLRU 0).applyStoreOps []).Set "k" ⟨200, [], [1], 0, 1, 1⟩).1.lru = []) ∧
    (((((NewInMemoryQuotaLRU 0).applyStoreOps []).Set "k" ⟨200, [], [1], 0, 1, 1⟩).1.Get "k").1
        = (none, false)) :=
  oversized_entry_never_retained 0 [] "k" ⟨200, [], [1], 0, 1, 1⟩ (by decide)

/-- C10 counterexample: a store built with a quota of 0 MB *does* retain an
entry whose `Size` is 0 (empty body, no header names): `Set` keeps it and
the following `Get` finds it. -/
theorem zero_quota_retains_zero_size_entry :
    let e : ResponseCacheEntry := ⟨200, [], [], 0, 1, 1⟩
    (NewInMemoryQuotaLRU 0).maxBytes = 0 ∧
    e.Size = 0 ∧
    (((NewInMemoryQuotaLRU 0).Set "k" e).1.Get "k").1 = (some e, true) ∧
    ((NewInMemoryQuotaLRU 0).Set "k" e).1.lru ≠ [] := by
  decide

/-- C9 counterexample: when the `Connection` header carries two values, only
the tokens of the *first* value are deleted: `X-Secret` is listed as a token
inside the second `Connection` value, yet it survives sanitization. -/
theorem strip_misses_second_connection_value :
    let h0 : Header := [("Connection", ["close", "X-Secret"]), ("X-Secret", ["v"])]
    h0.find? (fun p => p.1 = "Connection") = some ("Connection", ["close", "X-Secret"]) ∧
    stripHopByHop h0 = [("X-Secret", ["v"])] ∧
    ("X-Secret", ["v"]) ∈ stripHopByHop h0 := by
  decide

/-- C9 (amended): `stripHopByHop` returns exactly the input with every entry
removed whose name is a canonical hop-by-hop name or a canonicalized
non-empty trimmed token of the *first* `Connection` value; every other entry
survives with its original values and order (and, the input being cloned
first, the Go function never mutates its input). -/
theorem strip_removes_and_preserves (header : Header) :
    stripHopByHop header = header.filter (fun p => decide (p.1 ∉ removedNames header)) ∧
    (∀ p ∈ stripHopByHop header, p.1 ∉ removedNames header) ∧
    (∀ p ∈ header, p.1 ∉ removedNames header → p ∈ stripHopByHop header) := by
  have hmain : stripHopByHop header
      = header.filter (fun p => decide (p.1 ∉ removedNames header)) := by
    unfold stripHopByHop removedNames connTokens
    dsimp only
    by_cases hc : headerGet header "Connection" = ""
    · rw [if_neg (by simp [hc]), if_neg (by simp [hc])]
      rw [foldl_headerDel_eq_filter]
      apply List.filter_congr
      intro p _
      simp
    · rw [if_pos hc, if_pos hc]
      rw [foldl_headerDel_eq_filter, foldl_delToken_eq_filter, List.filter_filter]
      apply List.filter_congr
      intro p _
      by_cases h1 : p.1 ∈ hopByHopHeaders.map goCanonicalKey <;>
        by_cases h2 : p.1 ∈ (((splitComma (headerGet header "Connection")).map trimSpace).filter
            (fun t => t ≠ "")).map goCanonicalKey <;>
        simp [h1, h2]
  refine ⟨hmain, ?_, ?_⟩
  · intro p hp
    rw [hmain] at hp
    simpa using (List.mem_filter.mp hp).2
  · intro p hp hnot
    rw [hmain]
    exact List.mem_filter.mpr ⟨hp, by simpa⟩

end CapsuleCache
